import Mathlib

/-!
Verification of the route-generation core of `src/router/index.js`
(vue-auto-router).

The JavaScript source is shallowly embedded:

* JS objects used as string-keyed metadata records become association
  lists (`Obj`) whose spread semantics (`{...a, ...b}`) is `spread2`.
* JS strings are Lean `String`s; the character-level operations the code
  performs (`String.prototype.replace` with a plain-string pattern, which
  replaces only the first occurrence; `replace(/\/index$/, '/')`;
  `split('/')`; `join('/')`; the global `replace(/\/\//g, '/')`, which
  scans left to right without rescanning; `replace(/\/$/, '')`) are
  modelled on `List Char`.
* The external collaborators (the `?raw` page loaders, the SFC parser,
  `JSON.parse` of a route block, the `route.json` modules, and the layout
  registry) are oracle functions collected in an `Env`; fallible loaders
  and parsers return `Except` (a JS throw/rejection is `.error`).
* `await loader()` on a possibly missing / rejecting loader is the
  `Except` value stored in the environment; the per-page `try/catch` of
  `generateRoutes` is the `match` in `processPages`, and the `try/catch`
  of `parseRouteBlock` is the `match` in `parseRouteBlock`.
* Route nodes become the inductive `Node`.  JS object fields that a given
  creation site does not write (and that therefore read as `undefined`)
  are `none`.  A `kind` label records which of the three creation sites
  produced the node (page leaf, synthesized parent, synthetic root); it
  is specification instrumentation only and is never read by the
  embedded code.
-/

/-- Values stored in a `meta` record (booleans and strings are the only
value shapes the program itself ever writes). -/
inductive MetaVal where
  | jb (b : Bool)
  | js (s : String)
deriving DecidableEq, Repr

/-- A JS object used as a string-keyed record, in insertion order. -/
abbrev Obj := List (String × MetaVal)

/-- Property read `o[k]` on a record: the first entry with key `k`. -/
def olookup (k : String) : Obj → Option MetaVal
  | [] => none
  | (k₀, v) :: rest => if k₀ = k then some v else olookup k rest

/-- JS `x || y` on two optional values (absent = `none`). -/
def ofirst {α : Type} : Option α → Option α → Option α
  | some v, _ => some v
  | none, y => y

/-- JS object spread `{...a, ...b}`: keys of `a` in order with `b`'s
value where `b` overrides, then the keys of `b` absent from `a`. -/
def spread2 (a b : Obj) : Obj :=
  a.map (fun kv => (kv.1, (olookup kv.1 b).getD kv.2)) ++
    b.filter (fun kv => (olookup kv.1 a).isNone)

/-- The shape of a decoded route-configuration payload (an embedded
`<route>` block or a `route.json` module): the fields `generateRoutes`
reads off it.  A field the payload does not provide is `none`. -/
structure RouteConfig where
  redirect : Option String := none
  name : Option String := none
  props : Option MetaVal := none
  meta : Option Obj := none
deriving DecidableEq, Repr

/-- One custom block of a parsed SFC descriptor (`btype` models the JS
field `type`, a reserved-looking name in this development). -/
structure SfcBlock where
  btype : String
  content : String
deriving DecidableEq, Repr

/-- The slice of `@vue/compiler-sfc`'s descriptor that the code reads:
`descriptor.customBlocks` may be absent (`?.` in the source). -/
structure SfcDescriptor where
  customBlocks : Option (List SfcBlock) := none
deriving DecidableEq, Repr

/-- A component reference held by a route node: either the lazy page
loader `() => pages[pagePath]()` (identified by its page path) or a
resolved layout component from the layout registry. -/
inductive CompRef where
  | pageLoader (pagePath : String)
  | layoutRef (c : String)
deriving DecidableEq, Repr

/-- Which of the three creation sites produced a node (instrumentation
only; the embedded code never reads it). -/
inductive NodeKind where
  | leaf
  | parent
  | synthRoot
deriving DecidableEq, Repr

/-- One route node.  Fields in source order: `path`, `component`,
`redirect`, `meta`, `name`, `props`, `children`; `kind` is the
instrumentation label.  `none` models a field the creation site did not
write (reads as `undefined` in JS). -/
inductive Node where
  | mk (kind : NodeKind) (path : String) (component : Option CompRef)
       (redirect : Option String) (meta : Option Obj)
       (name : Option String) (props : Option MetaVal)
       (children : Option (List Node)) : Node

def Node.kind : Node → NodeKind
  | .mk k _ _ _ _ _ _ _ => k

def Node.path : Node → String
  | .mk _ p _ _ _ _ _ _ => p

def Node.component : Node → Option CompRef
  | .mk _ _ c _ _ _ _ _ => c

def Node.redirect : Node → Option String
  | .mk _ _ _ r _ _ _ _ => r

def Node.meta : Node → Option Obj
  | .mk _ _ _ _ m _ _ _ => m

def Node.name : Node → Option String
  | .mk _ _ _ _ _ n _ _ => n

def Node.props : Node → Option MetaVal
  | .mk _ _ _ _ _ _ pr _ => pr

def Node.children : Node → Option (List Node)
  | .mk _ _ _ _ _ _ _ cs => cs

/-- Replace a node's `children` field, keeping every other field. -/
def setChildren : Node → Option (List Node) → Node
  | .mk k p c r m n pr _, cs => .mk k p c r m n pr cs

@[simp] theorem Node.kind_mk (k p c r m n pr cs) :
    (Node.mk k p c r m n pr cs).kind = k := rfl

@[simp] theorem Node.path_mk (k p c r m n pr cs) :
    (Node.mk k p c r m n pr cs).path = p := rfl

@[simp] theorem Node.component_mk (k p c r m n pr cs) :
    (Node.mk k p c r m n pr cs).component = c := rfl

@[simp] theorem Node.redirect_mk (k p c r m n pr cs) :
    (Node.mk k p c r m n pr cs).redirect = r := rfl

@[simp] theorem Node.meta_mk (k p c r m n pr cs) :
    (Node.mk k p c r m n pr cs).meta = m := rfl

@[simp] theorem Node.name_mk (k p c r m n pr cs) :
    (Node.mk k p c r m n pr cs).name = n := rfl

@[simp] theorem Node.props_mk (k p c r m n pr cs) :
    (Node.mk k p c r m n pr cs).props = pr := rfl

@[simp] theorem Node.children_mk (k p c r m n pr cs) :
    (Node.mk k p c r m n pr cs).children = cs := rfl

/-- The external collaborators of the generator, as oracles.
`rawPages p` is `await rawPages[p]()` (`.error` = the loader is missing
or rejects; `.ok none` = falsy content; `.ok (some s)` = the raw text
fed to the SFC parser, i.e. `rawContent.default || rawContent`).
`configFiles cp` is the glob map for `route.json` modules (`none` = no
such key; the stored `Except` is the awaited module whose decoded
default export is the `Option RouteConfig`).  `layoutComponents` is the
eagerly built layout registry. -/
structure Env where
  rawPages : String → Except String (Option String)
  sfcParse : String → Except String SfcDescriptor
  jsonDecode : String → Except String RouteConfig
  configFiles : String → Option (Except String (Option RouteConfig))
  layoutComponents : String → Option String

/-! ### Character-level models of the JS string operations -/

/-- Does `pat` occur at the head of `l`? (JS `startsWith` at offset 0.) -/
def begWith : List Char → List Char → Bool
  | [], _ => true
  | _ :: _, [] => false
  | a :: as, b :: bs => a = b && begWith as bs

/-- JS `s.endsWith(pat)`. -/
def endsWithL (pat s : List Char) : Bool :=
  begWith pat.reverse s.reverse

/-- JS `s.replace(pat, rep)` with a plain-string pattern: replace the
first occurrence only; leave `s` unchanged if `pat` does not occur. -/
def repFirst (pat rep : List Char) : List Char → List Char
  | [] => []
  | c :: cs =>
    if begWith pat (c :: cs) then rep ++ (c :: cs).drop pat.length
    else c :: repFirst pat rep cs

/-- JS `s.replace(/\/index$/, '/')`: if `s` ends in `/index`, replace
that suffix by a single slash. -/
def stripIndexSuffix (s : List Char) : List Char :=
  if endsWithL "/index".toList s then s.take (s.length - 6) ++ ['/'] else s

/-- JS `s.split('/')` (so `''.split('/') = ['']`). -/
def splitSl : List Char → List (List Char)
  | [] => [[]]
  | c :: cs =>
    if c = '/' then [] :: splitSl cs
    else
      match splitSl cs with
      | [] => [[c]]
      | p :: ps => (c :: p) :: ps

/-- JS `segments.join('/')`. -/
def joinSl : List (List Char) → List Char
  | [] => []
  | [s] => s
  | s :: rest => s ++ '/' :: joinSl rest

/-- JS `s.replace(/\/\//g, '/')`: global, left-to-right, without
rescanning the replacement. -/
def collapseSl : List Char → List Char
  | [] => []
  | [c] => [c]
  | c₁ :: c₂ :: rest =>
    if c₁ = '/' ∧ c₂ = '/' then '/' :: collapseSl rest
    else c₁ :: collapseSl (c₂ :: rest)

/-- JS `s.replace(/\/$/, '')`: drop one trailing slash if present. -/
def dropTrailSl (s : List Char) : List Char :=
  if s.getLast? = some '/' then s.dropLast else s

/-! ### Path normalization (`generateRoutes` lines 75–82 and
`generateNestedPath`) -/

/-- Lines 75–82: normalize the page path and split it into the directory
segments and the popped file name (`segments.pop() || 'index'`). -/
def normalizeParts (pagePath : String) : List (List Char) × List Char :=
  let normalized :=
    stripIndexSuffix (repFirst ".vue".toList []
      (repFirst "../views".toList [] pagePath.toList))
  let segments0 := (splitSl normalized).filter (fun p => !p.isEmpty)
  ((segments0.dropLast), (segments0.getLast?).getD "index".toList)

/-- The `path` local of `generateNestedPath`: dynamic-segment brackets
become a `:` parameter (JS `slice(1, -1)`), a non-root `index` becomes
empty, the root `index` becomes `/`. -/
def finalSegment (segments : List (List Char)) (fileName : List Char) :
    List Char :=
  if fileName.head? = some '[' ∧ fileName.getLast? = some ']' then
    ':' :: (fileName.drop 1).dropLast
  else if fileName = "index".toList then
    (if segments = [] then ['/'] else [])
  else fileName

/-- `generateNestedPath(segments, fileName)` on character lists. -/
def genNestedPath (segments : List (List Char)) (fileName : List Char) :
    List Char :=
  dropTrailSl (collapseSl
    ('/' :: joinSl segments ++ '/' :: finalSegment segments fileName))

/-- The route path the generator assigns to a page. -/
def routePathOf (pagePath : String) : String :=
  let parts := normalizeParts pagePath
  String.mk (genNestedPath parts.1 parts.2)

/-- `'/' + segments.join('/')`, the path of a synthesized parent. -/
def parentPathOf (segments : List (List Char)) : String :=
  String.mk ('/' :: joinSl segments)

/-! ### Config extraction and the metadata merge -/

/-- The body of `parseRouteBlock` without its `try/catch`: each step
that can throw in JS is an `Except`. -/
def parseRouteBlockTry (env : Env) (raw : Option String) :
    Except String RouteConfig :=
  match raw with
  | none => .ok {}
  | some s =>
    match env.sfcParse s with
    | .error e => .error e
    | .ok d =>
      match (d.customBlocks.getD []).find? (fun b => b.btype == "route") with
      | some b => env.jsonDecode b.content
      | none => .ok {}

/-- `parseRouteBlock`: the `catch` turns any failure into `{}`. -/
def parseRouteBlock (env : Env) (raw : Option String) : RouteConfig :=
  match parseRouteBlockTry env raw with
  | .ok v => v
  | .error _ => {}

/-- Lines 83–86: the sibling `route.json` path is looked up only when
the page file itself is `index.vue`. -/
def configPathOf (pagePath : String) : Option String :=
  if endsWithL "/index.vue".toList pagePath.toList then
    some (String.mk (pagePath.toList.take (pagePath.toList.length - 10) ++
      "/route.json".toList))
  else none

/-- Lines 87–92: load and decode the sibling config (absent key or
`null` config path contribute `{}`; an awaited rejection is an error
that the per-page catch will swallow). -/
def loadJsonConfig (env : Env) (pagePath : String) :
    Except String RouteConfig :=
  match configPathOf pagePath with
  | none => .ok {}
  | some cp =>
    match env.configFiles cp with
    | none => .ok {}
    | some m =>
      match m with
      | .error e => .error e
      | .ok dflt => .ok (dflt.getD {})

/-- The computed default metadata (lines 95–98): `requiresAuth` from the
`Auth` file-name prefix, `layout` from the (already popped) segments. -/
def defaultsOf (fileName : List Char) (segments : List (List Char)) : Obj :=
  [("requiresAuth", .jb (begWith "Auth".toList fileName)),
   ("layout", .js (if segments.contains "admin".toList
                   then "AdminLayout" else "DefaultLayout"))]

/-- Lines 94–102: `{requiresAuth, layout, ...jsonConfig.meta,
...routeBlockConfig.meta}`. -/
def mergedMetaOf (fileName : List Char) (segments : List (List Char))
    (jsonMeta blockMeta : Obj) : Obj :=
  spread2 (spread2 (defaultsOf fileName segments) jsonMeta) blockMeta

/-- The merged metadata of one page given its two decoded configs. -/
def pageMergedMeta (pagePath : String) (jc rbc : RouteConfig) : Obj :=
  let parts := normalizeParts pagePath
  mergedMetaOf parts.2 parts.1 (jc.meta.getD []) (rbc.meta.getD [])

/-- Line 133: `layoutComponents[mergedMeta.layout]` (a non-string layout
value or a registry miss reads as `undefined`). -/
def layoutCompOf (env : Env) (meta : Obj) : Option CompRef :=
  match olookup "layout" meta with
  | some (.js s) => (env.layoutComponents s).map CompRef.layoutRef
  | _ => none

/-! ### Per-page processing and tree assembly -/

/-- The leaf route object of lines 105–120. -/
def mkLeaf (pagePath : String) (jc rbc : RouteConfig) : Node :=
  .mk .leaf (routePathOf pagePath) (some (.pageLoader pagePath))
    (ofirst jc.redirect rbc.redirect)
    (some (pageMergedMeta pagePath jc rbc))
    (ofirst jc.name rbc.name) (ofirst jc.props rbc.props) (some [])

/-- What one iteration of the page loop computes before touching the
accumulator: the popped segments, the leaf route, and the layout
component a synthesized parent would get. -/
structure PageInfo where
  segments : List (List Char)
  route : Node
  parentComp : Option CompRef

/-- The body of one iteration of the page loop up to (but not including)
the accumulator updates; an `.error` is a JS throw that the per-page
`catch` will swallow.  All accumulator mutations in the source happen
after the last `await`, so they are confined to `insertRoute`. -/
def processPageTry (env : Env) (pagePath : String) :
    Except String PageInfo :=
  match env.rawPages pagePath with
  | .error e => .error e
  | .ok rawContent =>
    let rbc := parseRouteBlock env rawContent
    match loadJsonConfig env pagePath with
    | .error e => .error e
    | .ok jc =>
      .ok ⟨(normalizeParts pagePath).1, mkLeaf pagePath jc rbc,
           layoutCompOf env (pageMergedMeta pagePath jc rbc)⟩

/-- `routes.find(r => r.path === parentPath)` followed by
`parentRoute.children.push(route)`: push `child` into the first node
with path `pp`, or report that none exists. -/
def insertChildAt (pp : String) (child : Node) :
    List Node → Option (List Node)
  | [] => none
  | r :: rs =>
    if r.path = pp then
      some (setChildren r (some ((r.children.getD []) ++ [child])) :: rs)
    else
      match insertChildAt pp child rs with
      | some rs' => some (r :: rs')
      | none => none

/-- The synthesized parent of lines 128–137: only `path`, `component`
and `children` are written. -/
def mkParent (pp : String) (comp : Option CompRef) (child : Node) : Node :=
  .mk .parent pp comp none none none none (some [child])

/-- Lines 122–144: place the computed leaf into the accumulator. -/
def insertRoute (acc : List Node) (info : PageInfo) : List Node :=
  if info.segments.isEmpty then acc ++ [info.route]
  else
    match insertChildAt (parentPathOf info.segments) info.route acc with
    | some acc' => acc'
    | none =>
      acc ++ [mkParent (parentPathOf info.segments) info.parentComp info.route]

/-- The page loop with its per-page `try/catch`: a failed page leaves
the accumulator untouched. -/
def processPages (env : Env) : List String → List Node → List Node
  | [], acc => acc
  | p :: ps, acc =>
    processPages env ps
      (match processPageTry env p with
       | .error _ => acc
       | .ok info => insertRoute acc info)

/-- The synthetic root of lines 157–161: `path`, `redirect` and `meta`
only. -/
def synthRootNode : Node :=
  .mk .synthRoot "/" none (some "/home")
    (some [("requiresAuth", .jb false)]) none none none

/-- Lines 151–162: append the default root route when no top-level route
has path `/`. -/
def rootComplete (rs : List Node) : List Node :=
  if rs.any (fun r => r.path = "/") then rs else rs ++ [synthRootNode]

/-- `generateRoutes`, as a function of the oracle environment and the
enumerated page paths (`Object.keys(pages)` in discovery order). -/
def generateRoutes (env : Env) (pages : List String) : List Node :=
  rootComplete (processPages env pages [])

/-! ### Specification vocabulary -/

/-- All nodes of the returned structure: the top-level nodes and their
children (the assembler only ever nests one level deep: children are
always leaf routes). -/
def collectNodes (rs : List Node) : List Node :=
  rs.flatMap (fun r => r :: (r.children.getD []))

/-- A binder-free "every node satisfies `Q`". -/
def ForallNodes (Q : Node → Prop) : List Node → Prop
  | [] => True
  | n :: ns => Q n ∧ ForallNodes Q ns

/-- The path-shape invariant of the spec: absolute, and no trailing
slash except for the root path itself. -/
def goodPath (s : String) : Prop :=
  s.toList.head? = some '/' ∧
    (s.toList = ['/'] ∨ s.toList.getLast? ≠ some '/')

/-! ### Example environments used by the concrete theorems -/

/-- A minimal environment: every page's raw module is falsy, no
`route.json` module exists, and every layout name resolves. -/
def envTriv : Env where
  rawPages := fun _ => .ok none
  sfcParse := fun _ => .error "unused"
  jsonDecode := fun _ => .error "unused"
  configFiles := fun _ => none
  layoutComponents := fun s => some s

/-- Like `envTriv`, but a `route.json` module carrying
`{meta: {layout: "Custom"}}` exists at every conceivable path. -/
def envCfg : Env where
  rawPages := fun _ => .ok none
  sfcParse := fun _ => .error "unused"
  jsonDecode := fun _ => .error "unused"
  configFiles := fun _ => some (.ok (some { meta := some [("layout", .js "Custom")] }))
  layoutComponents := fun s => some s

/-- An environment in which every raw page loader rejects. -/
def envErr : Env where
  rawPages := fun _ => .error "load failed"
  sfcParse := fun _ => .error "unused"
  jsonDecode := fun _ => .error "unused"
  configFiles := fun _ => none
  layoutComponents := fun s => some s

/-! ### Lookup lemmas for the object-spread merge -/

theorem olookup_append (k : String) (a b : Obj) :
    olookup k (a ++ b) = ofirst (olookup k a) (olookup k b) := by
  induction a with
  | nil => simp [olookup, ofirst]
  | cons kv rest ih =>
    obtain ⟨k₀, v⟩ := kv
    by_cases h : k₀ = k <;> simp [olookup, h, ofirst, ih]

theorem olookup_mapUpd (k : String) (a b : Obj) :
    olookup k (a.map (fun kv => (kv.1, (olookup kv.1 b).getD kv.2))) =
      (olookup k a).map (fun v => (olookup k b).getD v) := by
  induction a with
  | nil => simp [olookup]
  | cons kv rest ih =>
    obtain ⟨k₀, v⟩ := kv
    by_cases h : k₀ = k
    · subst h; simp [olookup]
    · simp [olookup, h, ih]

theorem olookup_filter_absent (k : String) (a b : Obj)
    (h : olookup k a = none) :
    olookup k (b.filter (fun kv => (olookup kv.1 a).isNone)) =
      olookup k b := by
  induction b with
  | nil => simp
  | cons kv rest ih =>
    obtain ⟨k₁, w⟩ := kv
    by_cases hk : k₁ = k
    · subst hk
      simp [List.filter_cons, h, olookup]
    · cases hq : (olookup k₁ a).isNone <;>
        simp [List.filter_cons, hq, olookup, hk, ih]

theorem olookup_filter_present (k : String) (a b : Obj) (v : MetaVal)
    (h : olookup k a = some v) :
    olookup k (b.filter (fun kv => (olookup kv.1 a).isNone)) = none := by
  induction b with
  | nil => simp [olookup]
  | cons kv rest ih =>
    obtain ⟨k₁, w⟩ := kv
    by_cases hk : k₁ = k
    · subst hk
      simp [List.filter_cons, h, olookup, ih]
    · cases hq : (olookup k₁ a).isNone <;>
        simp [List.filter_cons, hq, olookup, hk, ih]

/-- Pointwise semantics of the JS spread `{...a, ...b}`: on every key,
the value of `b` wins, falling back to `a`. -/
theorem spread2_olookup (k : String) (a b : Obj) :
    olookup k (spread2 a b) = ofirst (olookup k b) (olookup k a) := by
  unfold spread2
  rw [olookup_append, olookup_mapUpd]
  cases ha : olookup k a with
  | none =>
    rw [olookup_filter_absent k a b ha]
    cases hb : olookup k b <;> simp [ofirst]
  | some v =>
    rw [olookup_filter_present k a b v ha]
    cases hb : olookup k b <;> simp [ofirst]

/-- Pointwise semantics of the three-layer metadata merge of lines
94–102: embedded block first, then sibling config, then defaults. -/
theorem mergedMetaOf_olookup (k : String) (fn : List Char)
    (segs : List (List Char)) (j b : Obj) :
    olookup k (mergedMetaOf fn segs j b) =
      ofirst (olookup k b) (ofirst (olookup k j)
        (olookup k (defaultsOf fn segs))) := by
  unfold mergedMetaOf
  rw [spread2_olookup, spread2_olookup]

/-! ### Shape lemmas for the path normalizer -/

/-- Proof-side predicate: no two adjacent slashes (so the doubled-slash
collapse is the identity). -/
def noAdj : List Char → Bool
  | [] => true
  | [_] => true
  | c₁ :: c₂ :: rest => !(c₁ == '/' && c₂ == '/') && noAdj (c₂ :: rest)

theorem noAdj_cons_of_ne (c : Char) (l : List Char) (hc : c ≠ '/')
    (hl : noAdj l = true) : noAdj (c :: l) = true := by
  cases l with
  | nil => rfl
  | cons c₂ r => simp [noAdj, hc, hl]

theorem noAdj_slash_cons (l : List Char) (hh : l.head? ≠ some '/')
    (hl : noAdj l = true) : noAdj ('/' :: l) = true := by
  cases l with
  | nil => rfl
  | cons c₂ r =>
    have hc : c₂ ≠ '/' := by
      intro h
      exact hh (by simp [h])
    simp [noAdj, hc, hl]

theorem slashFree_noAdj (l : List Char) (h : '/' ∉ l) : noAdj l = true := by
  induction l with
  | nil => rfl
  | cons c r ih =>
    have hc : c ≠ '/' := by
      intro hEq
      exact h (by rw [hEq]; exact List.mem_cons_self '/' r)
    exact noAdj_cons_of_ne c r hc (ih (fun hm => h (List.mem_cons_of_mem c hm)))

theorem appendSlashFree (s t : List Char) (hs : '/' ∉ s)
    (ht : noAdj t = true) : noAdj (s ++ t) = true := by
  induction s with
  | nil => simpa
  | cons c s' ih =>
    have hc : c ≠ '/' := by
      intro hEq
      exact hs (by rw [hEq]; exact List.mem_cons_self '/' s')
    exact noAdj_cons_of_ne c (s' ++ t) hc
      (ih (fun hm => hs (List.mem_cons_of_mem c hm)))

theorem collapseSl_of_noAdj : ∀ l : List Char, noAdj l = true →
    collapseSl l = l
  | [], _ => rfl
  | [_], _ => rfl
  | c₁ :: c₂ :: rest, h => by
    have h' : ¬(c₁ = '/' ∧ c₂ = '/') ∧ noAdj (c₂ :: rest) = true := by
      constructor
      · rintro ⟨rfl, rfl⟩
        simp [noAdj] at h
      · simp only [noAdj, Bool.and_eq_true] at h
        exact h.2
    simp only [collapseSl]
    rw [if_neg h'.1, collapseSl_of_noAdj (c₂ :: rest) h'.2]

theorem mem_of_getLastQ {α : Type} : ∀ (l : List α) (a : α),
    l.getLast? = some a → a ∈ l
  | [], a, h => by simp at h
  | [c], a, h => by
    simp only [List.getLast?_singleton, Option.some.injEq] at h
    simp [h]
  | c₁ :: c₂ :: r, a, h => by
    rw [List.getLast?_cons_cons] at h
    exact List.mem_cons_of_mem _ (mem_of_getLastQ (c₂ :: r) a h)

theorem joinSl_ne_nil : ∀ segs : List (List Char), segs ≠ [] →
    (∀ s ∈ segs, s ≠ []) → joinSl segs ≠ []
  | [s], _, h => by simpa [joinSl] using h s (by simp)
  | s :: r :: rs, _, h => by
    simp only [joinSl]
    exact List.append_ne_nil_of_left_ne_nil (h s (by simp)) _

theorem joinSl_head? : ∀ (s : List Char) (rest : List (List Char)),
    s ≠ [] → (joinSl (s :: rest)).head? = s.head?
  | _, [], _ => rfl
  | s, r :: rs, h => by
    simp only [joinSl]
    rw [List.head?_append]
    obtain ⟨a, s', rfl⟩ := List.exists_cons_of_ne_nil h
    rfl

theorem joinSl_getLast? : ∀ segs : List (List Char), segs ≠ [] →
    (∀ s ∈ segs, s ≠ [] ∧ '/' ∉ s) → (joinSl segs).getLast? ≠ some '/'
  | [s], _, h => by
    simp only [joinSl]
    intro hc
    exact (h s (by simp)).2 (mem_of_getLastQ s '/' hc)
  | s :: r :: rs, _, h => by
    have hrest : ∀ x ∈ r :: rs, x ≠ [] ∧ '/' ∉ x :=
      fun x hx => h x (List.mem_cons_of_mem s hx)
    have hrec := joinSl_getLast? (r :: rs) (by simp) hrest
    have hne : joinSl (r :: rs) ≠ [] :=
      joinSl_ne_nil (r :: rs) (by simp) (fun x hx => (hrest x hx).1)
    simp only [joinSl]
    rw [List.getLast?_append]
    obtain ⟨b, j', hj⟩ := List.exists_cons_of_ne_nil hne
    rw [hj, List.getLast?_cons_cons]
    have hsome : (b :: j').getLast?.isSome = true := by
      rw [List.getLast?_isSome]
      exact List.cons_ne_nil b j'
    obtain ⟨v, hv⟩ := Option.isSome_iff_exists.mp hsome
    rw [hv]
    rw [hj, hv] at hrec
    intro hc
    exact hrec hc

theorem joinSl_append_head? (segs : List (List Char)) (x : List Char)
    (hne : segs ≠ []) (h : ∀ s ∈ segs, s ≠ [] ∧ '/' ∉ s) :
    (joinSl segs ++ x).head? ≠ some '/' := by
  obtain ⟨s, rest, rfl⟩ := List.exists_cons_of_ne_nil hne
  rw [List.head?_append]
  have hs := h s (by simp)
  rw [joinSl_head? s rest hs.1]
  obtain ⟨a, s', rfl⟩ := List.exists_cons_of_ne_nil hs.1
  have ha : a ≠ '/' := by
    intro hEq
    exact hs.2 (by rw [hEq]; exact List.mem_cons_self '/' s')
  simpa [Option.or] using ha

theorem noAdjMid : ∀ (segs : List (List Char)) (p : List Char),
    (∀ s ∈ segs, s ≠ [] ∧ '/' ∉ s) → noAdj p = true →
    p.head? ≠ some '/' → noAdj (joinSl segs ++ '/' :: p) = true
  | [], p, _, hp, hh => by
    simp only [joinSl, List.nil_append]
    exact noAdj_slash_cons p hh hp
  | [s], p, h, hp, hh => by
    simp only [joinSl]
    exact appendSlashFree s ('/' :: p) (h s (by simp)).2
      (noAdj_slash_cons p hh hp)
  | s :: r :: rs, p, h, hp, hh => by
    have hrest : ∀ x ∈ r :: rs, x ≠ [] ∧ '/' ∉ x :=
      fun x hx => h x (List.mem_cons_of_mem s hx)
    have hrec := noAdjMid (r :: rs) p hrest hp hh
    have hhead : (joinSl (r :: rs) ++ '/' :: p).head? ≠ some '/' :=
      joinSl_append_head? (r :: rs) ('/' :: p) (by simp) hrest
    have : s ++ '/' :: (joinSl (r :: rs) ++ '/' :: p) =
        joinSl (s :: r :: rs) ++ '/' :: p := by
      simp [joinSl]
    rw [← this]
    exact appendSlashFree s _ (h s (by simp)).2
      (noAdj_slash_cons _ hhead hrec)

theorem dropTrailSl_concat_slash (l : List Char) :
    dropTrailSl (l ++ ['/']) = l := by
  unfold dropTrailSl
  rw [if_pos (List.getLast?_concat l), List.dropLast_concat]

theorem dropTrailSl_of_ne (l : List Char) (h : l.getLast? ≠ some '/') :
    dropTrailSl l = l := by
  unfold dropTrailSl
  rw [if_neg h]

/-- Core shape fact: with well-formed directory segments and a final
segment that is either slash-free and nonempty, or empty next to a
nonempty segment list, the assembled path starts with `/` and carries no
trailing slash. -/
theorem genPath_core (segs : List (List Char)) (p : List Char)
    (h : ∀ s ∈ segs, s ≠ [] ∧ '/' ∉ s)
    (hp : (p ≠ [] ∧ '/' ∉ p) ∨ (p = [] ∧ segs ≠ [])) :
    (dropTrailSl (collapseSl ('/' :: joinSl segs ++ '/' :: p))).head? =
        some '/' ∧
      (dropTrailSl (collapseSl ('/' :: joinSl segs ++ '/' :: p))).getLast? ≠
        some '/' := by
  rcases hp with ⟨hpne, hpf⟩ | ⟨rfl, hsegs⟩
  · obtain ⟨a, p', rfl⟩ := List.exists_cons_of_ne_nil hpne
    have ha : a ≠ '/' := by
      intro hEq
      exact hpf (by rw [hEq]; exact List.mem_cons_self '/' p')
    have hlastp : (a :: p').getLast? ≠ some '/' := by
      intro hc
      exact hpf (mem_of_getLastQ _ '/' hc)
    by_cases hs0 : segs = []
    · subst hs0
      have hexp : ('/' :: joinSl [] ++ '/' :: a :: p') =
          '/' :: '/' :: a :: p' := by simp [joinSl]
      rw [hexp]
      have hcol : collapseSl ('/' :: '/' :: a :: p') =
          '/' :: a :: p' := by
        have h1 : collapseSl ('/' :: '/' :: a :: p') =
            '/' :: collapseSl (a :: p') := by
          simp [collapseSl]
        rw [h1, collapseSl_of_noAdj (a :: p') (slashFree_noAdj _ hpf)]
      rw [hcol]
      have hlast : ('/' :: a :: p').getLast? ≠ some '/' := by
        rw [List.getLast?_cons_cons]
        exact hlastp
      rw [dropTrailSl_of_ne _ hlast]
      exact ⟨rfl, hlast⟩
    · have hmid := noAdjMid segs (a :: p') h
        (slashFree_noAdj _ hpf) (by simp [ha])
      have hfull : noAdj ('/' :: (joinSl segs ++ '/' :: a :: p')) = true :=
        noAdj_slash_cons _ (joinSl_append_head? segs _ hs0 h) hmid
      have hexp : ('/' :: joinSl segs ++ '/' :: a :: p') =
          '/' :: (joinSl segs ++ '/' :: a :: p') := by simp
      rw [hexp, collapseSl_of_noAdj _ hfull]
      have hlast : ('/' :: (joinSl segs ++ '/' :: a :: p')).getLast? ≠
          some '/' := by
        have hne2 : joinSl segs ++ '/' :: a :: p' ≠ [] := by
          intro hc
          exact List.cons_ne_nil '/' (a :: p') (List.append_eq_nil.mp hc).2
        obtain ⟨b, t, ht⟩ := List.exists_cons_of_ne_nil hne2
        rw [ht, List.getLast?_cons_cons, ← ht]
        rw [List.getLast?_append, List.getLast?_cons_cons]
        have hsome : (a :: p').getLast?.isSome = true := by
          rw [List.getLast?_isSome]
          exact List.cons_ne_nil a p'
        obtain ⟨v, hv⟩ := Option.isSome_iff_exists.mp hsome
        rw [hv]
        intro hc
        exact hlastp (by rw [hv]; exact hc)
      rw [dropTrailSl_of_ne _ hlast]
      exact ⟨rfl, hlast⟩
  · have hmid := noAdjMid segs [] h rfl (by simp)
    have hfull : noAdj ('/' :: (joinSl segs ++ ['/'])) = true :=
      noAdj_slash_cons _ (joinSl_append_head? segs _ hsegs h) hmid
    have hexp : ('/' :: joinSl segs ++ '/' :: ([] : List Char)) =
        '/' :: (joinSl segs ++ ['/']) := by simp
    rw [hexp, collapseSl_of_noAdj _ hfull]
    have hexp2 : ('/' :: (joinSl segs ++ ['/'])) =
        ('/' :: joinSl segs) ++ ['/'] := by simp
    rw [hexp2, dropTrailSl_concat_slash]
    have hJ : joinSl segs ≠ [] :=
      joinSl_ne_nil segs hsegs (fun s hs => (h s hs).1)
    obtain ⟨b, t, ht⟩ := List.exists_cons_of_ne_nil hJ
    constructor
    · rfl
    · rw [ht, List.getLast?_cons_cons, ← ht]
      exact joinSl_getLast? segs hsegs h

theorem splitSl_ne_nil (s : List Char) : splitSl s ≠ [] := by
  induction s with
  | nil => simp [splitSl]
  | cons c cs ih =>
    simp only [splitSl]
    by_cases h : c = '/'
    · simp [h]
    · rw [if_neg h]
      cases hr : splitSl cs with
      | nil => simp
      | cons p ps => simp

theorem splitSl_slashFree (s : List Char) : ∀ p ∈ splitSl s, '/' ∉ p := by
  induction s with
  | nil =>
    intro p hp
    simp [splitSl] at hp
    simp [hp]
  | cons c cs ih =>
    intro p hp
    simp only [splitSl] at hp
    by_cases h : c = '/'
    · rw [if_pos h] at hp
      rcases List.mem_cons.mp hp with rfl | hmem
      · simp
      · exact ih p hmem
    · rw [if_neg h] at hp
      cases hr : splitSl cs with
      | nil => exact absurd hr (splitSl_ne_nil cs)
      | cons p₀ ps =>
        rw [hr] at hp
        rcases List.mem_cons.mp hp with rfl | hmem
        · intro hm
          rcases List.mem_cons.mp hm with hEq | hmem₀
          · exact h hEq.symm
          · exact ih p₀ (hr ▸ List.mem_cons_self p₀ ps) hmem₀
        · exact ih p (hr ▸ List.mem_cons_of_mem p₀ hmem)

/-- The segments and popped file name produced by the normalizer are
nonempty and slash-free (for every input string). -/
theorem normalizeParts_facts (pagePath : String) :
    (∀ s ∈ (normalizeParts pagePath).1, s ≠ [] ∧ '/' ∉ s) ∧
      ((normalizeParts pagePath).2 ≠ [] ∧ '/' ∉ (normalizeParts pagePath).2) := by
  unfold normalizeParts
  simp only
  set n := stripIndexSuffix (repFirst ".vue".toList []
    (repFirst "../views".toList [] pagePath.toList)) with hn
  have hmem : ∀ s ∈ (splitSl n).filter (fun p => !p.isEmpty),
      s ≠ [] ∧ '/' ∉ s := by
    intro s hs
    rw [List.mem_filter] at hs
    refine ⟨?_, splitSl_slashFree n s hs.1⟩
    intro hEq
    rw [hEq] at hs
    simp at hs
  constructor
  · intro s hs
    exact hmem s (List.mem_of_mem_dropLast hs)
  · cases hl : ((splitSl n).filter (fun p => !p.isEmpty)).getLast? with
    | none => simp [hl]
    | some a =>
      simp only [hl, Option.getD_some]
      exact hmem a (mem_of_getLastQ _ a hl)

/-- Every path `generateNestedPath` builds from well-formed parts starts
with a slash and, unless it is the root path itself, does not end with
one. -/
theorem genNestedPath_shape (segs : List (List Char)) (fn : List Char)
    (h : ∀ s ∈ segs, s ≠ [] ∧ '/' ∉ s) (hfn : fn ≠ []) (hf : '/' ∉ fn) :
    (genNestedPath segs fn).head? = some '/' ∧
      (genNestedPath segs fn = ['/'] ∨
        (genNestedPath segs fn).getLast? ≠ some '/') := by
  unfold genNestedPath
  by_cases hb : fn.head? = some '[' ∧ fn.getLast? = some ']'
  · have hfs : finalSegment segs fn = ':' :: (fn.drop 1).dropLast := by
      unfold finalSegment
      rw [if_pos hb]
    rw [hfs]
    have hp : (':' :: (fn.drop 1).dropLast ≠ [] ∧
        '/' ∉ ':' :: (fn.drop 1).dropLast) ∨
        ((':' :: (fn.drop 1).dropLast : List Char) = [] ∧ segs ≠ []) := by
      left
      refine ⟨List.cons_ne_nil _ _, ?_⟩
      intro hm
      rcases List.mem_cons.mp hm with hEq | hmem
      · exact absurd hEq (by decide)
      · exact hf (List.drop_subset 1 fn (List.dropLast_subset _ hmem))
    have := genPath_core segs (':' :: (fn.drop 1).dropLast) h hp
    exact ⟨this.1, Or.inr this.2⟩
  · by_cases hi : fn = "index".toList
    · by_cases hs : segs = []
      · subst hs
        subst hi
        constructor
        · decide
        · left
          decide
      · have hfs : finalSegment segs fn = [] := by
          unfold finalSegment
          rw [if_neg hb, if_pos hi, if_neg hs]
        rw [hfs]
        have := genPath_core segs [] h (Or.inr ⟨rfl, hs⟩)
        exact ⟨this.1, Or.inr this.2⟩
    · have hfs : finalSegment segs fn = fn := by
        unfold finalSegment
        rw [if_neg hb, if_neg hi]
      rw [hfs]
      have := genPath_core segs fn h (Or.inl ⟨hfn, hf⟩)
      exact ⟨this.1, Or.inr this.2⟩

/-- The route path of every page (for every input string) is absolute
with no trailing slash except the root. -/
theorem routePathOf_good (pagePath : String) : goodPath (routePathOf pagePath) := by
  have hfacts := normalizeParts_facts pagePath
  have := genNestedPath_shape (normalizeParts pagePath).1
    (normalizeParts pagePath).2 hfacts.1 hfacts.2.1 hfacts.2.2
  unfold goodPath routePathOf
  exact this

/-- The path of a synthesized parent is absolute with no trailing
slash. -/
theorem parentPathOf_good (segs : List (List Char)) (hne : segs ≠ [])
    (h : ∀ s ∈ segs, s ≠ [] ∧ '/' ∉ s) : goodPath (parentPathOf segs) := by
  unfold goodPath parentPathOf
  have hJ : joinSl segs ≠ [] := joinSl_ne_nil segs hne (fun s hs => (h s hs).1)
  obtain ⟨b, t, ht⟩ := List.exists_cons_of_ne_nil hJ
  constructor
  · rfl
  · right
    show ('/' :: joinSl segs).getLast? ≠ some '/'
    rw [ht, List.getLast?_cons_cons, ← ht]
    exact joinSl_getLast? segs hne h

/-! ### Tree-assembly invariants -/

theorem setChildren_kind (n : Node) (cs : Option (List Node)) :
    (setChildren n cs).kind = n.kind := by cases n; rfl

theorem setChildren_path (n : Node) (cs : Option (List Node)) :
    (setChildren n cs).path = n.path := by cases n; rfl

theorem setChildren_component (n : Node) (cs : Option (List Node)) :
    (setChildren n cs).component = n.component := by cases n; rfl

theorem setChildren_redirect (n : Node) (cs : Option (List Node)) :
    (setChildren n cs).redirect = n.redirect := by cases n; rfl

theorem setChildren_meta (n : Node) (cs : Option (List Node)) :
    (setChildren n cs).meta = n.meta := by cases n; rfl

theorem setChildren_name (n : Node) (cs : Option (List Node)) :
    (setChildren n cs).name = n.name := by cases n; rfl

theorem setChildren_props (n : Node) (cs : Option (List Node)) :
    (setChildren n cs).props = n.props := by cases n; rfl

theorem setChildren_children (n : Node) (cs : Option (List Node)) :
    (setChildren n cs).children = cs := by cases n; rfl

/-- A successful page iteration yields exactly the leaf of `mkLeaf`, the
normalizer's segments, and the layout lookup for the merged meta. -/
theorem processPageTry_ok {env : Env} {p : String} {info : PageInfo}
    (h : processPageTry env p = .ok info) :
    ∃ jc rbc, info = ⟨(normalizeParts p).1, mkLeaf p jc rbc,
      layoutCompOf env (pageMergedMeta p jc rbc)⟩ := by
  unfold processPageTry at h
  cases hr : env.rawPages p with
  | error e => rw [hr] at h; simp at h
  | ok rawContent =>
    rw [hr] at h
    cases hj : loadJsonConfig env p with
    | error e => rw [hj] at h; simp at h
    | ok jc =>
      rw [hj] at h
      simp only [Except.ok.injEq] at h
      exact ⟨jc, parseRouteBlock env rawContent, h.symm⟩

theorem mkLeaf_kind (p : String) (jc rbc : RouteConfig) :
    (mkLeaf p jc rbc).kind = .leaf := rfl

theorem insertChildAt_map {α : Type} (f : Node → α)
    (hf : ∀ r cs, f (setChildren r (some cs)) = f r)
    (pp : String) (child : Node) :
    ∀ rs rs', insertChildAt pp child rs = some rs' →
      rs'.map f = rs.map f := by
  intro rs
  induction rs with
  | nil => intro rs' h; simp [insertChildAt] at h
  | cons r rest ih =>
    intro rs' h
    unfold insertChildAt at h
    by_cases hp : r.path = pp
    · rw [if_pos hp] at h
      simp only [Option.some.injEq] at h
      subst h
      simp [hf]
    · rw [if_neg hp] at h
      cases hrec : insertChildAt pp child rest with
      | none => rw [hrec] at h; simp at h
      | some rest' =>
        rw [hrec] at h
        simp only [Option.some.injEq] at h
        subst h
        simp [ih rest' hrec]

theorem insertChildAt_none (pp : String) (child : Node) :
    ∀ rs, insertChildAt pp child rs = none ↔ ∀ r ∈ rs, r.path ≠ pp := by
  intro rs
  induction rs with
  | nil => simp [insertChildAt]
  | cons r rest ih =>
    unfold insertChildAt
    by_cases hp : r.path = pp
    · rw [if_pos hp]
      simp [hp]
    · rw [if_neg hp]
      cases hrec : insertChildAt pp child rest with
      | none =>
        constructor
        · intro _ x hx
          rcases List.mem_cons.mp hx with rfl | hmem
          · exact hp
          · exact (ih.mp hrec) x hmem
        · intro _
          rfl
      | some rest' =>
        simp only [hrec]
        constructor
        · intro hc; simp at hc
        · intro hall
          have : insertChildAt pp child rest = none := by
            rw [ih]
            exact fun x hx => hall x (List.mem_cons_of_mem r hx)
          rw [hrec] at this
          simp at this

theorem collectNodes_cons (r : Node) (rs : List Node) :
    collectNodes (r :: rs) =
      (r :: (r.children.getD [])) ++ collectNodes rs := by
  simp [collectNodes]

theorem collectNodes_append (rs₁ rs₂ : List Node) :
    collectNodes (rs₁ ++ rs₂) = collectNodes rs₁ ++ collectNodes rs₂ := by
  simp [collectNodes]

theorem collect_Q_insertChildAt (Q : Node → Prop)
    (hQ : ∀ r cs, Q r → Q (setChildren r (some cs)))
    (pp : String) (child : Node) (hc : Q child) :
    ∀ rs rs', insertChildAt pp child rs = some rs' →
      (∀ x ∈ collectNodes rs, Q x) → ∀ x ∈ collectNodes rs', Q x := by
  intro rs
  induction rs with
  | nil => intro rs' h; simp [insertChildAt] at h
  | cons r rest ih =>
    intro rs' h hall
    have hr : Q r := hall r (by rw [collectNodes_cons]; simp)
    have hchild : ∀ x ∈ r.children.getD [], Q x := by
      intro x hx
      refine hall x ?_
      rw [collectNodes_cons]
      exact List.mem_append_left _ (List.mem_cons_of_mem r hx)
    have hrest : ∀ x ∈ collectNodes rest, Q x := by
      intro x hx
      refine hall x ?_
      rw [collectNodes_cons]
      exact List.mem_append_right _ hx
    unfold insertChildAt at h
    by_cases hp : r.path = pp
    · rw [if_pos hp] at h
      simp only [Option.some.injEq] at h
      subst h
      intro x hx
      rw [collectNodes_cons] at hx
      rcases List.mem_append.mp hx with hx₁ | hx₂
      · rcases List.mem_cons.mp hx₁ with rfl | hmem
        · exact hQ r _ hr
        · rw [setChildren_children] at hmem
          simp only [Option.getD_some] at hmem
          rcases List.mem_append.mp hmem with hold | hnew
          · exact hchild x hold
          · rw [List.mem_singleton.mp hnew]
            exact hc
      · exact hrest x hx₂
    · rw [if_neg hp] at h
      cases hrec : insertChildAt pp child rest with
      | none => rw [hrec] at h; simp at h
      | some rest' =>
        rw [hrec] at h
        simp only [Option.some.injEq] at h
        subst h
        intro x hx
        rw [collectNodes_cons] at hx
        rcases List.mem_append.mp hx with hx₁ | hx₂
        · rcases List.mem_cons.mp hx₁ with rfl | hmem
          · exact hr
          · exact hchild x hmem
        · exact ih rest' hrec hrest x hx₂

theorem collect_Q_insertRoute (Q : Node → Prop)
    (hQ : ∀ r cs, Q r → Q (setChildren r (some cs)))
    (acc : List Node) (info : PageInfo)
    (hacc : ∀ x ∈ collectNodes acc, Q x) (hroute : Q info.route)
    (hrc : info.route.children = some [])
    (hparent : ¬info.segments.isEmpty →
      Q (mkParent (parentPathOf info.segments) info.parentComp info.route)) :
    ∀ x ∈ collectNodes (insertRoute acc info), Q x := by
  unfold insertRoute
  by_cases he : info.segments.isEmpty
  · rw [if_pos he]
    intro x hx
    rw [collectNodes_append] at hx
    rcases List.mem_append.mp hx with hx₁ | hx₂
    · exact hacc x hx₁
    · rw [collectNodes_cons] at hx₂
      rcases List.mem_append.mp hx₂ with hx₃ | hx₄
      · rcases List.mem_cons.mp hx₃ with rfl | hmem
        · exact hroute
        · rw [hrc] at hmem
          simp at hmem
      · simp [collectNodes] at hx₄
  · rw [if_neg he]
    cases hrec : insertChildAt (parentPathOf info.segments) info.route acc with
    | some acc' =>
      exact collect_Q_insertChildAt Q hQ _ info.route hroute acc acc' hrec hacc
    | none =>
      intro x hx
      rw [collectNodes_append] at hx
      rcases List.mem_append.mp hx with hx₁ | hx₂
      · exact hacc x hx₁
      · rw [collectNodes_cons] at hx₂
        rcases List.mem_append.mp hx₂ with hx₃ | hx₄
        · rcases List.mem_cons.mp hx₃ with rfl | hmem
          · exact hparent he
          · have : x ∈ [info.route] := by
              simpa [mkParent] using hmem
            rw [List.mem_singleton.mp this]
            exact hroute
        · simp [collectNodes] at hx₄

theorem mkLeaf_children (p : String) (jc rbc : RouteConfig) :
    (mkLeaf p jc rbc).children = some [] := rfl

theorem collect_Q_processPages (Q : Node → Prop)
    (hQ : ∀ r cs, Q r → Q (setChildren r (some cs)))
    (env : Env) (hleaf : ∀ p jc rbc, Q (mkLeaf p jc rbc))
    (hparent : ∀ p jc rbc comp, (normalizeParts p).1 ≠ [] →
      Q (mkParent (parentPathOf (normalizeParts p).1) comp (mkLeaf p jc rbc))) :
    ∀ (ps : List String) (acc : List Node),
      (∀ x ∈ collectNodes acc, Q x) →
      ∀ x ∈ collectNodes (processPages env ps acc), Q x := by
  intro ps
  induction ps with
  | nil => intro acc hacc; exact hacc
  | cons p ps ih =>
    intro acc hacc
    simp only [processPages]
    cases hstep : processPageTry env p with
    | error e => exact ih acc hacc
    | ok info =>
      refine ih _ ?_
      obtain ⟨jc, rbc, rfl⟩ := processPageTry_ok hstep
      refine collect_Q_insertRoute Q hQ acc _ hacc (hleaf p jc rbc)
        (mkLeaf_children p jc rbc) ?_
      intro hne
      exact hparent p jc rbc _ (by simpa [List.isEmpty_iff] using hne)

theorem collect_Q_generateRoutes (Q : Node → Prop)
    (hQ : ∀ r cs, Q r → Q (setChildren r (some cs)))
    (env : Env) (hleaf : ∀ p jc rbc, Q (mkLeaf p jc rbc))
    (hparent : ∀ p jc rbc comp, (normalizeParts p).1 ≠ [] →
      Q (mkParent (parentPathOf (normalizeParts p).1) comp (mkLeaf p jc rbc)))
    (hroot : Q synthRootNode) (pages : List String) :
    ∀ x ∈ collectNodes (generateRoutes env pages), Q x := by
  unfold generateRoutes rootComplete
  have hall := collect_Q_processPages Q hQ env hleaf hparent pages []
    (by simp [collectNodes])
  by_cases hr : (processPages env pages []).any (fun r => r.path = "/")
  · rw [if_pos hr]
    exact hall
  · rw [if_neg hr]
    intro x hx
    rw [collectNodes_append] at hx
    rcases List.mem_append.mp hx with hx₁ | hx₂
    · exact hall x hx₁
    · rw [collectNodes_cons] at hx₂
      rcases List.mem_append.mp hx₂ with hx₃ | hx₄
      · rcases List.mem_cons.mp hx₃ with rfl | hmem
        · exact hroot
        · simp [synthRootNode] at hmem
      · simp [collectNodes] at hx₄

theorem ForallNodes_iff (Q : Node → Prop) :
    ∀ l : List Node, ForallNodes Q l ↔ ∀ x ∈ l, Q x := by
  intro l
  induction l with
  | nil => simp [ForallNodes]
  | cons n ns ih =>
    simp only [ForallNodes, ih, List.mem_cons]
    constructor
    · rintro ⟨hn, hall⟩ x (rfl | hx)
      · exact hn
      · exact hall x hx
    · intro hall
      exact ⟨hall n (Or.inl rfl), fun x hx => hall x (Or.inr hx)⟩

theorem ofirst_isSome {α : Type} (x y : Option α) (hy : y.isSome = true) :
    (ofirst x y).isSome = true := by
  cases x <;> simp [ofirst, hy]

theorem defaults_requiresAuth (fn : List Char) (segs : List (List Char)) :
    olookup "requiresAuth" (defaultsOf fn segs) =
      some (.jb (begWith "Auth".toList fn)) := rfl

theorem defaults_layout (fn : List Char) (segs : List (List Char)) :
    olookup "layout" (defaultsOf fn segs) =
      some (.js (if segs.contains "admin".toList
                 then "AdminLayout" else "DefaultLayout")) := rfl

theorem pageMergedMeta_keys (p : String) (jc rbc : RouteConfig) :
    (olookup "requiresAuth" (pageMergedMeta p jc rbc)).isSome = true ∧
      (olookup "layout" (pageMergedMeta p jc rbc)).isSome = true := by
  unfold pageMergedMeta
  constructor
  · rw [mergedMetaOf_olookup]
    apply ofirst_isSome
    apply ofirst_isSome
    rw [defaults_requiresAuth]
    rfl
  · rw [mergedMetaOf_olookup]
    apply ofirst_isSome
    apply ofirst_isSome
    rw [defaults_layout]
    rfl

/-- The per-node record discipline of the three creation sites: a
synthesized parent carries no descriptor fields at all, a page leaf
carries a meta with the two guaranteed keys, the synthetic root carries
exactly `{requiresAuth: false}`. -/
def nodeOkP (n : Node) : Prop :=
  match n.kind with
  | .parent =>
    n.meta = none ∧ n.name = none ∧ n.redirect = none ∧ n.props = none ∧
      (∃ l, n.children = some l)
  | .leaf => ∃ m, n.meta = some m ∧
      (olookup "requiresAuth" m).isSome = true ∧
      (olookup "layout" m).isSome = true
  | .synthRoot => n.meta = some [("requiresAuth", .jb false)]

theorem nodeOkP_setChildren (r : Node) (cs : List Node) (h : nodeOkP r) :
    nodeOkP (setChildren r (some cs)) := by
  cases r with
  | mk k p c rd m n pr cs₀ =>
    cases k with
    | parent =>
      obtain ⟨h1, h2, h3, h4, _⟩ := h
      exact ⟨h1, h2, h3, h4, ⟨cs, rfl⟩⟩
    | leaf => exact h
    | synthRoot => exact h

/-- Claim C7: every path produced by the path normalizer — and in fact
the path of every RouteNode in the output tree, parents and synthetic
root included — is an absolute slash-separated string beginning with `/`
and carrying no trailing slash, except that the root path is exactly
`/`; in particular `views/index.vue` normalizes to `/`. -/
theorem claim_C7_paths_absolute_no_trailing_slash :
    (∀ pagePath : String, goodPath (routePathOf pagePath)) ∧
      (∀ (env : Env) (pages : List String),
        ForallNodes (fun n => goodPath n.path)
          (collectNodes (generateRoutes env pages))) ∧
      routePathOf "../views/index.vue" = "/" := by
  refine ⟨routePathOf_good, ?_, by decide⟩
  intro env pages
  rw [ForallNodes_iff]
  refine collect_Q_generateRoutes (fun n => goodPath n.path) ?_ env ?_ ?_ ?_ pages
  · intro r cs h
    rw [setChildren_path]
    exact h
  · intro p jc rbc
    exact routePathOf_good p
  · intro p jc rbc comp hne
    show goodPath (parentPathOf (normalizeParts p).1)
    exact parentPathOf_good _ hne (normalizeParts_facts p).1
  · show goodPath "/"
    exact ⟨rfl, Or.inl rfl⟩

/-- Claim C10: every synthesized parent node carries no `meta`, `name`,
`redirect` or `props` (it has only `path`, `component` and `children`),
while every leaf route's meta carries the guaranteed keys `requiresAuth`
and `layout` and the synthetic root's meta is exactly
`{requiresAuth: false}` — so the guaranteed meta keys live only on
leaves and the synthetic root, never on synthesized parents. -/
theorem claim_C10_synthesized_parents_have_no_descriptor_fields
    (env : Env) (pages : List String) :
    ForallNodes nodeOkP (collectNodes (generateRoutes env pages)) := by
  rw [ForallNodes_iff]
  refine collect_Q_generateRoutes nodeOkP nodeOkP_setChildren env ?_ ?_ ?_ pages
  · intro p jc rbc
    show nodeOkP (mkLeaf p jc rbc)
    refine ⟨pageMergedMeta p jc rbc, rfl, ?_, ?_⟩
    · exact (pageMergedMeta_keys p jc rbc).1
    · exact (pageMergedMeta_keys p jc rbc).2
  · intro p jc rbc comp hne
    exact ⟨rfl, rfl, rfl, rfl, ⟨[mkLeaf p jc rbc], rfl⟩⟩
  · rfl

/-! ### Uniqueness of synthesized parent paths -/

/-- The children-insensitive signature of a node. -/
def sigOf (n : Node) : NodeKind × String := (n.kind, n.path)

theorem sigOf_setChildren (r : Node) (cs : List Node) :
    sigOf (setChildren r (some cs)) = sigOf r := by cases r; rfl

/-- The paths of the parent-labelled entries of a signature list. -/
def parentPathsSig (l : List (NodeKind × String)) : List String :=
  (l.filter (fun x => x.1 == NodeKind.parent)).map Prod.snd

theorem parentPathsSig_append (l₁ l₂ : List (NodeKind × String)) :
    parentPathsSig (l₁ ++ l₂) = parentPathsSig l₁ ++ parentPathsSig l₂ := by
  simp [parentPathsSig]

theorem mem_parentPathsSig (rs : List Node) (x : String)
    (hx : x ∈ parentPathsSig (rs.map sigOf)) : x ∈ rs.map Node.path := by
  unfold parentPathsSig at hx
  obtain ⟨⟨k, s⟩, hmem, hsnd⟩ := List.mem_map.mp hx
  have hin := (List.mem_filter.mp hmem).1
  obtain ⟨n, hn, hEq⟩ := List.mem_map.mp hin
  refine List.mem_map.mpr ⟨n, hn, ?_⟩
  have := congrArg Prod.snd hEq
  simp [sigOf] at this
  rw [this]
  exact hsnd

theorem parentPathsSig_eq (rs : List Node) :
    parentPathsSig (rs.map sigOf) =
      (rs.filter (fun n => n.kind == NodeKind.parent)).map Node.path := by
  induction rs with
  | nil => rfl
  | cons r rest ih =>
    by_cases hp : (r.kind == NodeKind.parent) = true <;>
      simp [parentPathsSig, sigOf, List.filter_cons, hp] <;>
      simpa [parentPathsSig, sigOf] using ih

theorem parentSig_insertRoute (acc : List Node) (info : PageInfo)
    (hkind : info.route.kind = NodeKind.leaf)
    (h : (parentPathsSig (acc.map sigOf)).Nodup) :
    (parentPathsSig ((insertRoute acc info).map sigOf)).Nodup := by
  unfold insertRoute
  by_cases he : info.segments.isEmpty
  · rw [if_pos he]
    rw [List.map_append, parentPathsSig_append]
    have hleafnil : parentPathsSig ([info.route].map sigOf) = [] := by
      simp [parentPathsSig, sigOf, hkind]
    rw [hleafnil, List.append_nil]
    exact h
  · rw [if_neg he]
    cases hrec : insertChildAt (parentPathOf info.segments) info.route acc with
    | some acc' =>
      have hmap := insertChildAt_map sigOf sigOf_setChildren _ info.route
        acc acc' hrec
      rw [hmap]
      exact h
    | none =>
      rw [List.map_append, parentPathsSig_append]
      have hnotin : parentPathOf info.segments ∉
          parentPathsSig (acc.map sigOf) := by
        intro hc
        obtain ⟨n, hn, hEq⟩ := List.mem_map.mp (mem_parentPathsSig acc _ hc)
        exact ((insertChildAt_none _ info.route acc).mp hrec) n hn hEq
      have hsingle : parentPathsSig
          ([mkParent (parentPathOf info.segments) info.parentComp
            info.route].map sigOf) = [parentPathOf info.segments] := by
        simp [parentPathsSig, sigOf, mkParent]
      rw [hsingle, List.nodup_append]
      refine ⟨h, List.nodup_singleton _, ?_⟩
      intro a ha hb
      rw [List.mem_singleton.mp hb] at ha
      exact hnotin ha

theorem parentSig_processPages (env : Env) :
    ∀ (ps : List String) (acc : List Node),
      (parentPathsSig (acc.map sigOf)).Nodup →
      (parentPathsSig ((processPages env ps acc).map sigOf)).Nodup := by
  intro ps
  induction ps with
  | nil => intro acc h; exact h
  | cons p ps ih =>
    intro acc h
    simp only [processPages]
    cases hstep : processPageTry env p with
    | error e => exact ih acc h
    | ok info =>
      refine ih _ ?_
      obtain ⟨jc, rbc, rfl⟩ := processPageTry_ok hstep
      exact parentSig_insertRoute acc _ (mkLeaf_kind p jc rbc) h

theorem parentSig_generateRoutes (env : Env) (pages : List String) :
    (parentPathsSig ((generateRoutes env pages).map sigOf)).Nodup := by
  unfold generateRoutes rootComplete
  have hbase := parentSig_processPages env pages [] (by simp [parentPathsSig])
  by_cases hr : (processPages env pages []).any (fun r => r.path = "/")
  · rw [if_pos hr]
    exact hbase
  · rw [if_neg hr]
    rw [List.map_append, parentPathsSig_append]
    have hroot : parentPathsSig ([synthRootNode].map sigOf) = [] := by
      simp [parentPathsSig, sigOf, synthRootNode]
    rw [hroot, List.append_nil]
    exact hbase

/-- Every child list in the accumulator holds leaf routes only (the
assembler pushes only page leaves into children). -/
def ChildLeaf (rs : List Node) : Prop :=
  ∀ r ∈ rs, ∀ c ∈ r.children.getD [], c.kind = NodeKind.leaf

theorem childLeaf_insertChildAt (pp : String) (child : Node)
    (hchild : child.kind = NodeKind.leaf) :
    ∀ rs rs', insertChildAt pp child rs = some rs' →
      ChildLeaf rs → ChildLeaf rs' := by
  intro rs
  induction rs with
  | nil => intro rs' h; simp [insertChildAt] at h
  | cons r rest ih =>
    intro rs' h hall
    unfold insertChildAt at h
    by_cases hp : r.path = pp
    · rw [if_pos hp] at h
      simp only [Option.some.injEq] at h
      subst h
      intro x hx c hc
      rcases List.mem_cons.mp hx with rfl | hmem
      · rw [setChildren_children] at hc
        simp only [Option.getD_some] at hc
        rcases List.mem_append.mp hc with hold | hnew
        · exact hall r (List.mem_cons_self r rest) c hold
        · rw [List.mem_singleton.mp hnew]
          exact hchild
      · exact hall x (List.mem_cons_of_mem r hmem) c hc
    · rw [if_neg hp] at h
      cases hrec : insertChildAt pp child rest with
      | none => rw [hrec] at h; simp at h
      | some rest' =>
        rw [hrec] at h
        simp only [Option.some.injEq] at h
        subst h
        intro x hx c hc
        rcases List.mem_cons.mp hx with rfl | hmem
        · exact hall x (List.mem_cons_self x rest) c hc
        · exact ih rest' hrec
            (fun y hy => hall y (List.mem_cons_of_mem r hy)) x hmem c hc

theorem childLeaf_insertRoute (acc : List Node) (info : PageInfo)
    (hkind : info.route.kind = NodeKind.leaf)
    (hrc : info.route.children = some [])
    (h : ChildLeaf acc) : ChildLeaf (insertRoute acc info) := by
  unfold insertRoute
  by_cases he : info.segments.isEmpty
  · rw [if_pos he]
    intro x hx c hc
    rcases List.mem_append.mp hx with hx₁ | hx₂
    · exact h x hx₁ c hc
    · rw [List.mem_singleton.mp hx₂] at hc
      rw [hrc] at hc
      simp at hc
  · rw [if_neg he]
    cases hrec : insertChildAt (parentPathOf info.segments) info.route acc with
    | some acc' => exact childLeaf_insertChildAt _ _ hkind acc acc' hrec h
    | none =>
      intro x hx c hc
      rcases List.mem_append.mp hx with hx₁ | hx₂
      · exact h x hx₁ c hc
      · rw [List.mem_singleton.mp hx₂] at hc
        simp only [mkParent, Node.children_mk, Option.getD_some] at hc
        rw [List.mem_singleton.mp hc]
        exact hkind

theorem childLeaf_generateRoutes (env : Env) (pages : List String) :
    ChildLeaf (generateRoutes env pages) := by
  have hbase : ∀ (ps : List String) (acc : List Node), ChildLeaf acc →
      ChildLeaf (processPages env ps acc) := by
    intro ps
    induction ps with
    | nil => intro acc h; exact h
    | cons p ps ih =>
      intro acc h
      simp only [processPages]
      cases hstep : processPageTry env p with
      | error e => exact ih acc h
      | ok info =>
        refine ih _ ?_
        obtain ⟨jc, rbc, rfl⟩ := processPageTry_ok hstep
        exact childLeaf_insertRoute acc _ (mkLeaf_kind p jc rbc)
          (mkLeaf_children p jc rbc) h
  unfold generateRoutes rootComplete
  have hp := hbase pages [] (by intro x hx; simp at hx)
  by_cases hr : (processPages env pages []).any (fun r => r.path = "/")
  · rw [if_pos hr]
    exact hp
  · rw [if_neg hr]
    intro x hx c hc
    rcases List.mem_append.mp hx with hx₁ | hx₂
    · exact hp x hx₁ c hc
    · rw [List.mem_singleton.mp hx₂] at hc
      simp [synthRootNode] at hc

theorem collect_filter_parent (rs : List Node) (h : ChildLeaf rs) :
    (collectNodes rs).filter (fun n => n.kind == NodeKind.parent) =
      rs.filter (fun n => n.kind == NodeKind.parent) := by
  induction rs with
  | nil => rfl
  | cons r rest ih =>
    rw [collectNodes_cons, List.filter_append]
    have hch : (r.children.getD []).filter
        (fun n => n.kind == NodeKind.parent) = [] := by
      rw [List.filter_eq_nil_iff]
      intro c hc
      have := h r (List.mem_cons_self r rest) c hc
      simp [this]
    have hrest := ih (fun y hy => h y (List.mem_cons_of_mem r hy))
    by_cases hp : (r.kind == NodeKind.parent) = true <;>
      simp [List.filter_cons, hp, hch, hrest]

/-- Claim C2 as stated is false: processing `views/a.vue` and
`views/a/index.vue` yields two distinct top-level RouteNodes that both
carry the path `/a` (both pages normalize to `/a` and both are appended
directly to the top-level list), so path uniqueness fails on this
input. -/
theorem claim_C2_counterexample :
    ((collectNodes (generateRoutes envTriv
        ["../views/a.vue", "../views/a/index.vue"])).map Node.path) =
      ["/a", "/a", "/"] := by decide

/-- Claim C2 (amended): within one run, the synthesized parent nodes
have pairwise distinct paths — anywhere in the returned tree there is at
most one synthesized parent per path value.  (Leaf routes can duplicate
a path, as the counterexample shows.) -/
theorem claim_C2_parent_paths_unique (env : Env) (pages : List String) :
    (((collectNodes (generateRoutes env pages)).filter
        (fun n => n.kind == NodeKind.parent)).map Node.path).Nodup := by
  rw [collect_filter_parent _ (childLeaf_generateRoutes env pages)]
  have h := parentSig_generateRoutes env pages
  rwa [parentPathsSig_eq] at h

/-- Claim C1: the spec expects the page `views/admin/index.vue` to get
path `/admin` with `meta.layout = "AdminLayout"`, and the code's own
comment says the admin layout is chosen when the path contains `admin`;
but the code pops `admin` into `fileName` before testing
`segments.includes('admin')`, so the produced route is `/admin` with
`meta.layout = "DefaultLayout"`. -/
theorem claim_C1_admin_index_gets_default_layout :
    (generateRoutes envTriv ["../views/admin/index.vue"]).map
        (fun n => (n.path, n.meta.bind (olookup "layout"))) =
      [("/admin", some (.js "DefaultLayout")), ("/", none)] := by decide

/-- Claim C4: the merged meta is computed field-by-field with the fixed
low-to-high precedence defaults → sibling config meta → embedded block
meta (on every key, the block wins, then the sibling config, then the
defaults), and on the spec's example — defaults
`{requiresAuth: false, layout: "DefaultLayout"}` (file name `Profile`,
no segments), sibling meta `{layout: "Custom"}`, block meta
`{requiresAuth: true}` — the result is
`{requiresAuth: true, layout: "Custom"}`. -/
theorem claim_C4_merge_precedence :
    (∀ (fn : List Char) (segs : List (List Char)) (j b : Obj) (k : String),
      olookup k (mergedMetaOf fn segs j b) =
        ofirst (olookup k b) (ofirst (olookup k j)
          (olookup k (defaultsOf fn segs)))) ∧
      defaultsOf "Profile".toList [] =
        [("requiresAuth", .jb false), ("layout", .js "DefaultLayout")] ∧
      mergedMetaOf "Profile".toList [] [("layout", .js "Custom")]
          [("requiresAuth", .jb true)] =
        [("requiresAuth", .jb true), ("layout", .js "Custom")] := by
  refine ⟨?_, by decide, by decide⟩
  intro fn segs j b k
  exact mergedMetaOf_olookup k fn segs j b

/-- Claim C6 as stated is false in its last conclusion: the pages
`views/index.vue` and `views/index/index.vue` both normalize to `/`, so
the output contains two root nodes (and, correctly, no synthetic one is
added). -/
theorem claim_C6_counterexample :
    ((generateRoutes envTriv
        ["../views/index.vue", "../views/index/index.vue"]).map Node.path) =
      ["/", "/"] := by decide

/-- Claim C3 as stated is false: the sibling declarative config is not
consulted for pages not named `index.vue`.  In `envCfg` a `route.json`
module carrying `{meta: {layout: "Custom"}}` exists at every path, yet
processing `views/users.vue` still yields `meta.layout =
"DefaultLayout"`, while the index page `views/users/index.vue` (same
route path `/users`) does pick up `layout = "Custom"`. -/
theorem claim_C3_counterexample :
    envCfg.configFiles "../views/route.json" =
        some (.ok (some { meta := some [("layout", .js "Custom")] })) ∧
      (generateRoutes envCfg ["../views/users.vue"]).map
          (fun n => (n.path, n.meta.bind (olookup "layout"))) =
        [("/users", some (.js "DefaultLayout")), ("/", none)] ∧
      (generateRoutes envCfg ["../views/users/index.vue"]).map
          (fun n => (n.path, n.meta.bind (olookup "layout"))) =
        [("/users", some (.js "Custom")), ("/", none)] := by
  refine ⟨rfl, by decide, by decide⟩

/-- The children-insensitive identity (kind, path, component) of a
node. -/
def sigComp (n : Node) : NodeKind × String × Option CompRef :=
  (n.kind, n.path, n.component)

theorem sigComp_setChildren (r : Node) (cs : List Node) :
    sigComp (setChildren r (some cs)) = sigComp r := by cases r; rfl

theorem insertRoute_map_ext {α : Type} (f : Node → α)
    (hf : ∀ r cs, f (setChildren r (some cs)) = f r)
    (acc : List Node) (info : PageInfo) :
    ∃ ext, (insertRoute acc info).map f = acc.map f ++ ext := by
  unfold insertRoute
  by_cases he : info.segments.isEmpty
  · rw [if_pos he]
    exact ⟨[f info.route], by simp⟩
  · rw [if_neg he]
    cases hrec : insertChildAt (parentPathOf info.segments) info.route acc with
    | some acc' =>
      refine ⟨[], ?_⟩
      rw [insertChildAt_map f hf _ info.route acc acc' hrec, List.append_nil]
    | none =>
      exact ⟨[f (mkParent (parentPathOf info.segments) info.parentComp
        info.route)], by simp⟩

theorem processPages_map_ext {α : Type} (f : Node → α)
    (hf : ∀ r cs, f (setChildren r (some cs)) = f r) (env : Env) :
    ∀ (ps : List String) (acc : List Node),
      ∃ ext, (processPages env ps acc).map f = acc.map f ++ ext := by
  intro ps
  induction ps with
  | nil => intro acc; exact ⟨[], by simp [processPages]⟩
  | cons p ps ih =>
    intro acc
    simp only [processPages]
    cases hstep : processPageTry env p with
    | error e => exact ih acc
    | ok info =>
      obtain ⟨ext₁, h₁⟩ := insertRoute_map_ext f hf acc info
      obtain ⟨ext₂, h₂⟩ := ih (insertRoute acc info)
      exact ⟨ext₁ ++ ext₂, by rw [h₂, h₁, List.append_assoc]⟩

/-- Claim C5: the two pages `views/admin/users.vue` and
`views/admin/roles.vue` yield exactly one synthesized parent at `/admin`
with exactly those two children in discovery order, whose component is
the `AdminLayout` layout selected by the first page processed; and in
general the (kind, path, component) signatures already in the
accumulator are only ever extended, never altered — so a later sibling
merged into an existing parent never changes that parent's component. -/
theorem claim_C5_first_child_selects_parent_layout :
    ((generateRoutes envTriv
        ["../views/admin/users.vue", "../views/admin/roles.vue"]).map
        (fun n => (n.kind, n.path, n.component,
          (n.children.getD []).map Node.path)) =
      [(.parent, "/admin", some (.layoutRef "AdminLayout"),
         ["/admin/users", "/admin/roles"]),
       (.synthRoot, "/", none, [])]) ∧
      (∀ (env : Env) (ps : List String) (acc : List Node),
        ∃ ext, (processPages env ps acc).map sigComp =
          acc.map sigComp ++ ext) := by
  exact ⟨by decide, processPages_map_ext sigComp sigComp_setChildren⟩

/-- Claim C6 (amended): after all pages are processed, if no top-level
route has path `/` then exactly one synthetic node
`{path: "/", redirect: "/home", meta: {requiresAuth: false}}` with no
component and no children is appended, and if some route already has
path `/` nothing is added; in both cases the output contains a route at
`/`.  (The original claim's final conclusion — at most one node at `/`
overall — is refuted separately: several pages can organically yield
`/`; the completion step itself only ever adds one.) -/
theorem claim_C6_root_completion (env : Env) (pages : List String) :
    ((processPages env pages []).any (fun r => r.path = "/") = false →
      generateRoutes env pages = processPages env pages [] ++
        [Node.mk .synthRoot "/" none (some "/home")
          (some [("requiresAuth", .jb false)]) none none none]) ∧
      ((processPages env pages []).any (fun r => r.path = "/") = true →
        generateRoutes env pages = processPages env pages []) ∧
      (generateRoutes env pages).any (fun r => r.path = "/") = true := by
  refine ⟨?_, ?_, ?_⟩
  · intro h
    unfold generateRoutes rootComplete
    rw [h]
    rfl
  · intro h
    unfold generateRoutes rootComplete
    rw [h]
    rfl
  · unfold generateRoutes rootComplete
    cases h : (processPages env pages []).any (fun r => r.path = "/") with
    | true => simpa using h
    | false =>
      simp only [Bool.false_eq_true, if_false, List.any_append]
      simp [synthRootNode]

/-- Witness for C6: on an empty page list nothing yields `/`, so the
output is exactly the synthetic root node. -/
theorem claim_C6_root_completion_witness :
    generateRoutes envTriv [] =
      [Node.mk .synthRoot "/" none (some "/home")
        (some [("requiresAuth", .jb false)]) none none none] := by
  have h := (claim_C6_root_completion envTriv []).1 rfl
  simpa [processPages] using h

/-- Claim C9: a page whose processing throws (raw-content load or
config load rejecting) is caught at the per-page boundary: it
contributes nothing and the loop continues with the remaining pages
unchanged (and the whole pass, being a total function, still returns). -/
theorem claim_C9_per_page_errors_contained (env : Env) (p : String)
    (e : String) (h : processPageTry env p = .error e) :
    ∀ (rest : List String) (acc : List Node),
      processPages env (p :: rest) acc = processPages env rest acc := by
  intro rest acc
  simp only [processPages, h]

/-- Witness for C9: with every raw loader rejecting, the first page is
dropped and processing continues. -/
theorem claim_C9_witness :
    processPages envErr ["../views/a.vue", "../views/b.vue"] [] =
      processPages envErr ["../views/b.vue"] [] :=
  claim_C9_per_page_errors_contained envErr "../views/a.vue" "load failed"
    rfl ["../views/b.vue"] []

/-- An environment whose SFC parser finds a route block but whose JSON
decode of its payload fails. -/
def envJsonBad : Env where
  rawPages := fun _ => .ok none
  sfcParse := fun _ =>
    .ok { customBlocks := some [{ btype := "route", content := "not json" }] }
  jsonDecode := fun _ => .error "bad json"
  configFiles := fun _ => none
  layoutComponents := fun _ => none

/-- Claim C8: the embedded-block extraction never surfaces an error:
absent content yields `{}`, any error of the try-body (SFC parse
failure or a malformed route-block payload) is caught and yields `{}`,
and a page without a route block also yields `{}`. -/
theorem claim_C8_block_extraction_never_raises (env : Env) :
    parseRouteBlock env none = {} ∧
      (∀ (raw : Option String) (e : String),
        parseRouteBlockTry env raw = .error e →
        parseRouteBlock env raw = {}) ∧
      (∀ (s : String) (e : String), env.sfcParse s = .error e →
        parseRouteBlock env (some s) = {}) ∧
      (∀ (s : String) (d : SfcDescriptor), env.sfcParse s = .ok d →
        (d.customBlocks.getD []).find? (fun b => b.btype == "route") = none →
        parseRouteBlock env (some s) = {}) ∧
      (∀ (s : String) (d : SfcDescriptor) (b : SfcBlock) (e : String),
        env.sfcParse s = .ok d →
        (d.customBlocks.getD []).find? (fun b => b.btype == "route") = some b →
        env.jsonDecode b.content = .error e →
        parseRouteBlock env (some s) = {}) := by
  refine ⟨rfl, ?_, ?_, ?_, ?_⟩
  · intro raw e h
    unfold parseRouteBlock
    rw [h]
  · intro s e h
    unfold parseRouteBlock parseRouteBlockTry
    simp only [h]
  · intro s d h₁ h₂
    unfold parseRouteBlock parseRouteBlockTry
    simp only [h₁, h₂]
  · intro s d b e h₁ h₂ h₃
    unfold parseRouteBlock parseRouteBlockTry
    simp only [h₁, h₂, h₃]

/-- Witness for C8: absent content, a rejecting parser, and a malformed
route-block payload all produce the empty config. -/
theorem claim_C8_witness :
    parseRouteBlock envTriv none = {} ∧
      parseRouteBlock envTriv (some "x") = {} ∧
      parseRouteBlock envJsonBad (some "y") = {} :=
  ⟨(claim_C8_block_extraction_never_raises envTriv).1,
   (claim_C8_block_extraction_never_raises envTriv).2.2.1 "x" "unused" rfl,
   (claim_C8_block_extraction_never_raises envJsonBad).2.2.2.2 "y"
     { customBlocks := some [{ btype := "route", content := "not json" }] }
     { btype := "route", content := "not json" } "bad json" rfl rfl rfl⟩

/-- Claim C3 (amended): the embedded-block extraction is attempted for
every page (whenever the raw load and config step succeed, the result
is built from `parseRouteBlock` of the loaded content), but the sibling
declarative config is consulted only for pages named `index.vue`: for
any other page the outcome is independent of the entire `route.json`
glob map, and for an index page whose sibling module is absent the
config step succeeds with the empty mapping — absence is never an
error. -/
theorem claim_C3_config_extraction_scope :
    (∀ (env : Env) (cf : String → Option (Except String (Option RouteConfig)))
        (p : String), ¬endsWithL "/index.vue".toList p.toList = true →
        processPageTry { env with configFiles := cf } p =
          processPageTry env p) ∧
      (∀ (env : Env) (p : String) (raw : Option String) (jc : RouteConfig),
        env.rawPages p = .ok raw → loadJsonConfig env p = .ok jc →
        processPageTry env p = .ok ⟨(normalizeParts p).1,
          mkLeaf p jc (parseRouteBlock env raw),
          layoutCompOf env (pageMergedMeta p jc (parseRouteBlock env raw))⟩) ∧
      (∀ (env : Env) (p cp : String), configPathOf p = some cp →
        env.configFiles cp = none → loadJsonConfig env p = .ok {}) := by
  refine ⟨?_, ?_, ?_⟩
  · intro env cf p hne
    have hcp : configPathOf p = none := by
      unfold configPathOf
      rw [if_neg hne]
    unfold processPageTry
    have hload : ∀ env' : Env, configPathOf p = none →
        loadJsonConfig env' p = .ok {} := by
      intro env' hc
      unfold loadJsonConfig
      rw [hc]
    rw [hload _ hcp, hload _ hcp]
    rfl
  · intro env p raw jc hraw hjc
    unfold processPageTry
    simp only [hraw, hjc]
  · intro env p cp hcp hcf
    unfold loadJsonConfig
    rw [hcp]
    simp only [hcf]

/-- Witness for C3 (amended): `views/users.vue` is processed identically
whether or not any `route.json` modules exist, the embedded extraction
runs on its loaded content, and for `views/users/index.vue` an absent
sibling module contributes the empty config without error. -/
theorem claim_C3_config_extraction_scope_witness :
    processPageTry { envTriv with configFiles := envCfg.configFiles }
        "../views/users.vue" = processPageTry envTriv "../views/users.vue" ∧
      processPageTry envTriv "../views/users.vue" =
        .ok ⟨(normalizeParts "../views/users.vue").1,
          mkLeaf "../views/users.vue" {} (parseRouteBlock envTriv none),
          layoutCompOf envTriv (pageMergedMeta "../views/users.vue" {}
            (parseRouteBlock envTriv none))⟩ ∧
      loadJsonConfig envTriv "../views/users/index.vue" = .ok {} :=
  ⟨(claim_C3_config_extraction_scope).1 envTriv envCfg.configFiles
      "../views/users.vue" (by decide),
   (claim_C3_config_extraction_scope).2.1 envTriv "../views/users.vue"
      none {} rfl rfl,
   (claim_C3_config_extraction_scope).2.2 envTriv "../views/users/index.vue"
      "../views/users/route.json" (by decide) rfl⟩
